import Mathlib

/-!
Verification of the TOTP core of the AuthenticatorApp browser extension.
The embedded code is `base32ToBytes` and `generateTOTP` from `src/spa.js`
(the same functions appear in `src/js/genTotp.js` and in the unnamed parts).

Modelling conventions:
* JS strings are lists of characters; `String.prototype.toUpperCase` and
  `toLowerCase` are modelled by `Char.toUpper` / `Char.toLower`, the Basic
  Latin case mapping, which covers the Base32 alphabet the code works on.
* Byte arrays (`Uint8Array`, `ArrayBuffer`) are lists of natural numbers;
  all bytes produced by the embedded functions are below 256.
* JS array reads `bytes[i]` inside the truncation step are modelled by
  `List.getD i 0`: every such read in the source is combined with a mask
  (`& 0xf`, `& 0x7f`, `& 0xff`) or used as an `|` operand, and an
  out-of-range read (`undefined`) passed through the JS bitwise coercion
  also yields `0`, so the default `0` is exact.
* The ambient clock (`Date.now`) is the explicit parameter
  `nowUnixSeconds`, and the Web Crypto HMAC-SHA1 primitive
  (`crypto.subtle.importKey` + `sign`) is a supplied function parameter,
  matching how the specification frames the generator.
-/

/-- Base32 alphabet, `const alphabet = "ABCDEFGHIJKLMNOPQRSTUVWXYZ234567"`
in `base32ToBytes` (src/spa.js line 108). -/
def alphabet : List Char := "ABCDEFGHIJKLMNOPQRSTUVWXYZ234567".toList

/-- Membership test for the character class `[A-Z2-7]` used by the regex
`replace(/[^A-Z2-7]/g, "")` in src/spa.js line 109. -/
def isB32Char (c : Char) : Bool :=
  ('A' ≤ c && c ≤ 'Z') || ('2' ≤ c && c ≤ '7')

/-- Removal of the maximal run of trailing `=` characters, the JS
`replace(/=+$/, "")` in src/spa.js line 109 (without the `m` flag, `$`
anchors only at the very end of the string). -/
def dropTrailingEq (s : List Char) : List Char :=
  (s.reverse.dropWhile (fun c => c == '=')).reverse

/-- Cleaning pipeline of `base32ToBytes` (src/spa.js line 109):
`base32.replace(/=+$/, "").toUpperCase().replace(/[^A-Z2-7]/g, "")`. -/
def cleanOf (s : List Char) : List Char :=
  ((dropTrailingEq s).map Char.toUpper).filter isB32Char

/-- Five bits contributed by one cleaned character, most significant first:
`val.toString(2).padStart(5, "0")` for `val = alphabet.indexOf(char)`
(src/spa.js lines 112-113).  Every character reaching this point is in the
alphabet, so `val` is between 0 and 31 and its padded binary rendering is
exactly these five bits. -/
def charBits (c : Char) : List Bool :=
  let val := List.indexOf c alphabet
  [val.testBit 4, val.testBit 3, val.testBit 2, val.testBit 1, val.testBit 0]

/-- Numeric value of one bit. -/
def bitVal (b : Bool) : Nat := cond b 1 0

/-- Byte-assembly loop of `base32ToBytes` (src/spa.js lines 115-118):
`for (let i = 0; i + 8 <= bits.length; i += 8)
   bytes.push(parseInt(bits.substring(i, i + 8), 2))`.
Consecutive 8-bit groups become one byte each, most significant bit first;
a final group of fewer than 8 bits is discarded. -/
def bitsToBytes : List Bool → List Nat
  | b0 :: b1 :: b2 :: b3 :: b4 :: b5 :: b6 :: b7 :: rest =>
      (128 * bitVal b0 + 64 * bitVal b1 + 32 * bitVal b2 + 16 * bitVal b3 +
        8 * bitVal b4 + 4 * bitVal b5 + 2 * bitVal b6 + bitVal b7) ::
      bitsToBytes rest
  | _ => []

/-- Base32 decoder `base32ToBytes` of src/spa.js lines 107-120. -/
def base32ToBytes (base32 : List Char) : List Nat :=
  bitsToBytes ((cleanOf base32).flatMap charBits)

/-- Big-endian bytes of a 32-bit word, as written by
`DataView.setUint32` for an argument already reduced modulo `2 ^ 32`. -/
def be32 (t : Nat) : List Nat :=
  [t / 2 ^ 24 % 256, t / 2 ^ 16 % 256, t / 2 ^ 8 % 256, t % 256]

/-- Counter buffer of `generateTOTP` (src/spa.js lines 83-85):
`new ArrayBuffer(8)` is zero-initialised and `view.setUint32(4, time)`
writes the big-endian 32-bit truncation of `time` into bytes 4..7, so the
first four bytes stay zero. -/
def counterBytes (time : Nat) : List Nat :=
  [0, 0, 0, 0] ++ be32 (time % 2 ^ 32)

/-- Dynamic-truncation offset (src/spa.js line 89):
`const offset = bytes[bytes.length - 1] & 0xf`. -/
def truncOffset (bytes : List Nat) : Nat :=
  bytes.getD (bytes.length - 1) 0 &&& 15

/-- Dynamic truncation (src/spa.js lines 89-93):
`((bytes[offset] & 0x7f) << 24) | ((bytes[offset+1] & 0xff) << 16) |
 ((bytes[offset+2] & 0xff) << 8) | (bytes[offset+3] & 0xff)`. -/
def dynamicTruncate (bytes : List Nat) : Nat :=
  let offset := truncOffset bytes
  ((bytes.getD offset 0 &&& 127) <<< 24) |||
  ((bytes.getD (offset + 1) 0 &&& 255) <<< 16) |||
  ((bytes.getD (offset + 2) 0 &&& 255) <<< 8) |||
  (bytes.getD (offset + 3) 0 &&& 255)

/-- Fuel-driven decimal rendering; with fuel at least the digit count it
produces the digits of `n` in order, prepended to `acc`. -/
def natToDecCore : Nat → Nat → List Char → List Char
  | 0, _, acc => acc
  | fuel + 1, n, acc =>
      if n < 10 then Nat.digitChar n :: acc
      else natToDecCore fuel (n / 10) (Nat.digitChar (n % 10) :: acc)

/-- Decimal rendering of a natural number, the JS `otp.toString()`
(src/spa.js line 95): digits of `n` base 10, no leading zeros, and the
single digit `0` for `n = 0`.  Fuel `n + 1` always exceeds the digit
count of `n`. -/
def natToDec (n : Nat) : List Char :=
  natToDecCore (n + 1) n []

/-- JS `String.prototype.padStart`: left-pad with `c` up to length `n`,
returning the string unchanged when it is already long enough. -/
def padStart (l : List Char) (n : Nat) (c : Char) : List Char :=
  List.replicate (n - l.length) c ++ l

/-- Tail of `generateTOTP` after the HMAC digest is available
(src/spa.js lines 88-95): truncate, reduce modulo 1000000, render and
zero-pad to six characters. -/
def totpFromDigest (digest : List Nat) : List Char :=
  padStart (natToDec (dynamicTruncate digest % 1000000)) 6 '0'

/-- TOTP generator `generateTOTP` of src/spa.js lines 79-98, with the
clock and the HMAC-SHA1 primitive as explicit parameters:
`key = base32ToBytes(secret)`, `time = floor(nowUnixSeconds / 30)`,
counter buffer as in `counterBytes`, then the truncation pipeline on
`hmac key buffer`. -/
def generateTOTP (hmac : List Nat → List Nat → List Nat)
    (secret : List Char) (nowUnixSeconds : Nat) : List Char :=
  totpFromDigest
    (hmac (base32ToBytes secret) (counterBytes (nowUnixSeconds / 30)))

/-- Reference decoder following the wording of the specification
(spec §4.1, quoted by claim C2): uppercase the input, strip trailing `=`
padding, remove every character outside the alphabet, then emit bytes
from consecutive 8-bit groups of the concatenated 5-bit indices. -/
def specClean (s : List Char) : List Char :=
  (dropTrailingEq (s.map Char.toUpper)).filter isB32Char

/-- Reference decode result per the specification wording (claim C2). -/
def specDecode (s : List Char) : List Nat :=
  bitsToBytes ((specClean s).flatMap charBits)

/-- Big-endian 8-byte rendering of a 64-bit counter, the RFC 4226 counter
field referenced by claims C1 and C3. -/
def be64 (c : Nat) : List Nat :=
  [c / 2 ^ 56 % 256, c / 2 ^ 48 % 256, c / 2 ^ 40 % 256, c / 2 ^ 32 % 256,
   c / 2 ^ 24 % 256, c / 2 ^ 16 % 256, c / 2 ^ 8 % 256, c % 256]

/-- Dynamic truncation exactly as spelled out by claim C1 and spec §4.2
step 4-5: `offset = digest[19] & 0x0F` and
`((digest[offset] & 0x7F) << 24) | (digest[offset+1] << 16) |
 (digest[offset+2] << 8) | digest[offset+3]`. -/
def rfcTruncate (digest : List Nat) : Nat :=
  let offset := digest.getD 19 0 &&& 15
  ((digest.getD offset 0 &&& 127) <<< 24) |||
  ((digest.getD (offset + 1) 0) <<< 16) |||
  ((digest.getD (offset + 2) 0) <<< 8) |||
  (digest.getD (offset + 3) 0)

/-- RFC 4226 / RFC 6238 reference result spelled out by claim C1: decode
the secret, HMAC the full 8-byte big-endian counter, truncate, reduce
modulo 1000000, render zero-padded to six digits. -/
def rfcTOTP (hmac : List Nat → List Nat → List Nat)
    (secret : List Char) (nowUnixSeconds : Nat) : List Char :=
  padStart
    (natToDec
      (rfcTruncate
        (hmac (base32ToBytes secret) (be64 (nowUnixSeconds / 30))) % 1000000))
    6 '0'

/-- Deterministic 20-byte-digest keyed-hash stand-in used for concrete
evaluations: the digest repeats byte 3 of the message twenty times, so it
is sensitive to the fourth byte of the signed counter buffer.  It
satisfies the interface assumed of HMAC-SHA1: digests are exactly 20
bytes long and every digest byte is below 256. -/
def hmacProbe (_key msg : List Nat) : List Nat :=
  List.replicate 20 (msg.getD 3 0 % 256)

example : base32ToBytes ("JBSWY3DP".toList) = [72, 101, 108, 108, 111] := by
  decide

example : base32ToBytes ("jbsw y3dp=".toList) = [72, 101, 108, 108, 111] := by
  decide

example : counterBytes (2 ^ 32) = [0, 0, 0, 0, 0, 0, 0, 0] := by decide

example : be64 (2 ^ 32) = [0, 0, 0, 1, 0, 0, 0, 0] := by decide

example : natToDec 843009 = ['8', '4', '3', '0', '0', '9'] := by decide

example : totpFromDigest (List.replicate 20 1) =
    ['8', '4', '3', '0', '0', '9'] := by decide

/-! Character case-mapping facts used to relate the cleaning pipeline of
the source with the order of steps in the specification. -/

theorem char_toNat_ofNat_lt {n : Nat} (h : n < 55296) :
    (Char.ofNat n).toNat = n := by
  rw [Char.ofNat, dif_pos (Or.inl h)]
  rfl

theorem char_toUpper_of_not {c : Char} (h : ¬(97 ≤ c.toNat ∧ c.toNat ≤ 122)) :
    c.toUpper = c := by
  simp only [Char.toUpper]
  rw [if_neg (by omega)]

theorem char_toNat_toUpper {c : Char} (h : 97 ≤ c.toNat ∧ c.toNat ≤ 122) :
    c.toUpper.toNat = c.toNat - 32 := by
  simp only [Char.toUpper]
  rw [if_pos (by omega),
    char_toNat_ofNat_lt (show c.toNat - 32 < 55296 by omega)]

theorem char_toUpper_fix (c : Char) : c.toUpper.toUpper = c.toUpper := by
  by_cases h : 97 ≤ c.toNat ∧ c.toNat ≤ 122
  · apply char_toUpper_of_not
    rw [char_toNat_toUpper h]
    omega
  · simp only [char_toUpper_of_not h]

theorem char_toLower_of_not {c : Char} (h : ¬(65 ≤ c.toNat ∧ c.toNat ≤ 90)) :
    c.toLower = c := by
  simp only [Char.toLower]
  rw [if_neg (by omega)]

theorem char_toNat_toLower {c : Char} (h : 65 ≤ c.toNat ∧ c.toNat ≤ 90) :
    c.toLower.toNat = c.toNat + 32 := by
  simp only [Char.toLower]
  rw [if_pos (by omega),
    char_toNat_ofNat_lt (show c.toNat + 32 < 55296 by omega)]

theorem char_toUpper_toLower (c : Char) : c.toLower.toUpper = c.toUpper := by
  by_cases h : 65 ≤ c.toNat ∧ c.toNat ≤ 90
  · have hl : c.toLower.toNat = c.toNat + 32 := char_toNat_toLower h
    have h2 : c.toLower.toUpper = Char.ofNat (c.toLower.toNat - 32) := by
      simp only [Char.toUpper]
      rw [if_pos (by omega)]
    rw [h2, hl, char_toUpper_of_not (by omega)]
    have h3 : c.toNat + 32 - 32 = c.toNat := by omega
    rw [h3, Char.ofNat_toNat]
  · rw [char_toLower_of_not h]

/-! List plumbing: dropping trailing padding commutes with the later
filtering steps, because every dropped character is `=` and `=` survives
none of the filters involved. -/

theorem filter_dropWhile_of_false {α : Type} {p q : α → Bool}
    (hpq : ∀ a, q a = true → p a = false) :
    ∀ l : List α, (l.dropWhile q).filter p = l.filter p := by
  intro l
  induction l with
  | nil => rfl
  | cons a l ih =>
    by_cases h : q a = true
    · have hp : p a = false := hpq a h
      rw [List.dropWhile_cons_of_pos h, ih]
      simp [List.filter_cons, hp]
    · rw [List.dropWhile_cons_of_neg h]

theorem filter_dropTrailingEq {p : Char → Bool} (hp : p '=' = false)
    (s : List Char) : (dropTrailingEq s).filter p = s.filter p := by
  have hq : ∀ a : Char, (a == '=') = true → p a = false := by
    intro a ha
    have h1 : a = '=' := by simpa using ha
    rw [h1]
    exact hp
  unfold dropTrailingEq
  rw [List.filter_reverse, filter_dropWhile_of_false hq, List.filter_reverse,
    List.reverse_reverse]

theorem cleanOf_eq (s : List Char) :
    cleanOf s = (s.filter (isB32Char ∘ Char.toUpper)).map Char.toUpper := by
  unfold cleanOf
  rw [List.filter_map,
    filter_dropTrailingEq (p := isB32Char ∘ Char.toUpper) (by decide)]

theorem specClean_eq (s : List Char) :
    specClean s = (s.filter (isB32Char ∘ Char.toUpper)).map Char.toUpper := by
  unfold specClean
  rw [filter_dropTrailingEq (p := isB32Char) (by decide), List.filter_map]

/-! Length bookkeeping for the decoder. -/

theorem bitsToBytes_length : ∀ l : List Bool,
    (bitsToBytes l).length = l.length / 8 := by
  intro l
  induction l using bitsToBytes.induct with
  | case1 b0 b1 b2 b3 b4 b5 b6 b7 rest ih =>
    simp only [bitsToBytes, List.length_cons, ih]
    omega
  | case2 l h =>
    rcases l with _ | ⟨b0, _ | ⟨b1, _ | ⟨b2, _ | ⟨b3, _ | ⟨b4, _ | ⟨b5, _ | ⟨b6, _ | ⟨b7, rest⟩⟩⟩⟩⟩⟩⟩⟩
    · simp [bitsToBytes]
    · simp [bitsToBytes]
    · simp [bitsToBytes]
    · simp [bitsToBytes]
    · simp [bitsToBytes]
    · simp [bitsToBytes]
    · simp [bitsToBytes]
    · simp [bitsToBytes]
    · exact absurd rfl (h b0 b1 b2 b3 b4 b5 b6 b7 rest)

theorem length_flatMap_charBits : ∀ l : List Char,
    (l.flatMap charBits).length = 5 * l.length := by
  intro l
  induction l with
  | nil => rfl
  | cons a l ih =>
    simp [List.flatMap_cons, charBits, ih]
    omega

/-! Output format: the rendered code is always exactly six decimal
digits. -/

theorem natToDecCore_length : ∀ (fuel n k : Nat) (acc : List Char),
    n < 10 ^ k → 1 ≤ k →
    (natToDecCore fuel n acc).length ≤ k + acc.length := by
  intro fuel
  induction fuel with
  | zero =>
    intro n k acc _ _
    simp only [natToDecCore]
    omega
  | succ fuel ih =>
    intro n k acc hn hk
    simp only [natToDecCore]
    by_cases h10 : n < 10
    · rw [if_pos h10]
      simp only [List.length_cons]
      omega
    · rw [if_neg h10]
      have hk2 : 2 ≤ k := by
        by_contra hcon
        have hke : k = 1 := by omega
        rw [hke] at hn
        simp only [pow_one] at hn
        omega
      have hsplit : 10 ^ k = 10 ^ (k - 1) * 10 := by
        rw [← pow_succ]
        congr 1
        omega
      have hdiv : n / 10 < 10 ^ (k - 1) := by
        rw [Nat.div_lt_iff_lt_mul (by norm_num)]
        omega
      have := ih (n / 10) (k - 1) (Nat.digitChar (n % 10) :: acc) hdiv (by omega)
      simp only [List.length_cons] at this
      omega

theorem natToDec_length_le {n k : Nat} (hn : n < 10 ^ k) (hk : 1 ≤ k) :
    (natToDec n).length ≤ k := by
  have h := natToDecCore_length (n + 1) n k [] hn hk
  simpa [natToDec] using h

theorem digitChar_isDigit : ∀ m : Nat, m < 10 →
    (Nat.digitChar m).isDigit = true := by decide

theorem natToDecCore_digits : ∀ (fuel n : Nat) (acc : List Char),
    (∀ c ∈ acc, c.isDigit = true) →
    ∀ c ∈ natToDecCore fuel n acc, c.isDigit = true := by
  intro fuel
  induction fuel with
  | zero =>
    intro n acc hacc
    simpa only [natToDecCore] using hacc
  | succ fuel ih =>
    intro n acc hacc c hc
    simp only [natToDecCore] at hc
    by_cases h10 : n < 10
    · rw [if_pos h10] at hc
      rcases List.mem_cons.mp hc with h | h
      · rw [h]
        exact digitChar_isDigit n h10
      · exact hacc c h
    · rw [if_neg h10] at hc
      refine ih (n / 10) (Nat.digitChar (n % 10) :: acc) ?_ c hc
      intro d hd
      rcases List.mem_cons.mp hd with h | h
      · rw [h]
        exact digitChar_isDigit (n % 10) (Nat.mod_lt n (by norm_num))
      · exact hacc d h

theorem natToDec_digits (n : Nat) :
    ∀ c ∈ natToDec n, c.isDigit = true := by
  intro c hc
  exact natToDecCore_digits (n + 1) n [] (by intro d hd; cases hd) c hc

/-- Shared six-digit format fact: whatever 20-or-not digest the primitive
returns, the rendered output is exactly six decimal digits. -/
theorem totpFromDigest_format (digest : List Nat) :
    (totpFromDigest digest).length = 6 ∧
      ∀ c ∈ totpFromDigest digest, c.isDigit = true := by
  have hlt : dynamicTruncate digest % 1000000 < 10 ^ 6 := by
    have h := Nat.mod_lt (dynamicTruncate digest) (y := 1000000) (by norm_num)
    calc dynamicTruncate digest % 1000000 < 1000000 := h
      _ ≤ 10 ^ 6 := by norm_num
  have hlen : (natToDec (dynamicTruncate digest % 1000000)).length ≤ 6 :=
    natToDec_length_le hlt (by norm_num)
  constructor
  · simp only [totpFromDigest, padStart, List.length_append,
      List.length_replicate]
    omega
  · intro c hc
    simp only [totpFromDigest, padStart, List.mem_append,
      List.mem_replicate] at hc
    rcases hc with ⟨_, h⟩ | h
    · rw [h]
      decide
    · exact natToDec_digits _ c h

/-! Counter encoding: relation between the 4-byte write the code performs
and the full 8-byte big-endian counter field of RFC 4226. -/

theorem counterBytes_of_lt {c : Nat} (h : c < 2 ^ 32) :
    counterBytes c = be64 c := by
  unfold counterBytes be64 be32
  rw [Nat.mod_eq_of_lt h]
  simp only [List.cons_append, List.nil_append, List.cons.injEq, and_true]
  omega

theorem counterBytes_eq_be64_iff {c : Nat} (h : c < 2 ^ 64) :
    counterBytes c = be64 c ↔ c < 2 ^ 32 := by
  constructor
  · intro he
    simp only [counterBytes, be64, be32, List.cons_append, List.nil_append,
      List.cons.injEq, and_true] at he
    obtain ⟨h0, h1, h2, h3, _⟩ := he
    omega
  · exact counterBytes_of_lt

/-! Dynamic truncation: bounds and agreement with the reference
formulation on genuine 20-byte digests. -/

theorem truncOffset_le (bytes : List Nat) : truncOffset bytes ≤ 15 :=
  Nat.and_le_right

theorem dynamicTruncate_lt (bytes : List Nat) :
    dynamicTruncate bytes < 2 ^ 31 := by
  simp only [dynamicTruncate]
  have ha : (bytes.getD (truncOffset bytes) 0 &&& 127) <<< 24 < 2 ^ 31 := by
    rw [Nat.shiftLeft_eq]
    have h := Nat.and_le_right (n := bytes.getD (truncOffset bytes) 0) (m := 127)
    calc (bytes.getD (truncOffset bytes) 0 &&& 127) * 2 ^ 24
        ≤ 127 * 2 ^ 24 := Nat.mul_le_mul_right _ h
      _ < 2 ^ 31 := by norm_num
  have hb : (bytes.getD (truncOffset bytes + 1) 0 &&& 255) <<< 16 < 2 ^ 31 := by
    rw [Nat.shiftLeft_eq]
    have h := Nat.and_le_right
      (n := bytes.getD (truncOffset bytes + 1) 0) (m := 255)
    calc (bytes.getD (truncOffset bytes + 1) 0 &&& 255) * 2 ^ 16
        ≤ 255 * 2 ^ 16 := Nat.mul_le_mul_right _ h
      _ < 2 ^ 31 := by norm_num
  have hc : (bytes.getD (truncOffset bytes + 2) 0 &&& 255) <<< 8 < 2 ^ 31 := by
    rw [Nat.shiftLeft_eq]
    have h := Nat.and_le_right
      (n := bytes.getD (truncOffset bytes + 2) 0) (m := 255)
    calc (bytes.getD (truncOffset bytes + 2) 0 &&& 255) * 2 ^ 8
        ≤ 255 * 2 ^ 8 := Nat.mul_le_mul_right _ h
      _ < 2 ^ 31 := by norm_num
  have hd : bytes.getD (truncOffset bytes + 3) 0 &&& 255 < 2 ^ 31 := by
    have h := Nat.and_le_right
      (n := bytes.getD (truncOffset bytes + 3) 0) (m := 255)
    omega
  exact Nat.or_lt_two_pow (Nat.or_lt_two_pow (Nat.or_lt_two_pow ha hb) hc) hd

theorem getD_lt_256 {digest : List Nat} (hbyte : ∀ b ∈ digest, b < 256)
    (i : Nat) : digest.getD i 0 < 256 := by
  rcases Nat.lt_or_ge i digest.length with h | h
  · rw [List.getD_eq_getElem?_getD, List.getElem?_eq_getElem h]
    exact hbyte _ (List.getElem_mem h)
  · rw [List.getD_eq_getElem?_getD, List.getElem?_eq_none (by omega)]
    simp

theorem dynamicTruncate_eq_rfc {digest : List Nat} (hlen : digest.length = 20)
    (hbyte : ∀ b ∈ digest, b < 256) :
    dynamicTruncate digest = rfcTruncate digest := by
  have hmask : ∀ i, digest.getD i 0 &&& 255 = digest.getD i 0 := by
    intro i
    have h := getD_lt_256 hbyte i
    have h255 : (255 : Nat) = 2 ^ 8 - 1 := by norm_num
    rw [h255, Nat.and_pow_two_sub_one_eq_mod, Nat.mod_eq_of_lt (by omega)]
  have hoff : truncOffset digest = digest.getD 19 0 &&& 15 := by
    simp only [truncOffset, hlen]
  simp only [dynamicTruncate, rfcTruncate, hoff, hmask]

/-! Claim theorems. -/

/-- Sample inputs from the specification (§8). -/
def sampleLower : List Char := "jbsw y3dp".toList

/-- Uppercase sample input from the specification (§8). -/
def sampleUpper : List Char := "JBSWY3DP".toList

/-- C1 counterexample: at `nowUnixSeconds = 30 * 2 ^ 32` the counter is
`2 ^ 32`; the code signs an all-zero buffer (only the low 32 bits of the
counter are written) while the reference signs the genuine 8-byte
big-endian counter, and with the valid 20-byte primitive `hmacProbe` the
two resulting codes differ (`000000` versus `843009`). -/
theorem generateTOTP_rfc_counterexample :
    generateTOTP hmacProbe [] (30 * 2 ^ 32) ≠
      rfcTOTP hmacProbe [] (30 * 2 ^ 32) := by
  decide

/-- C1 (amended): for every secret, every 20-byte-digest primitive with
byte-valued output, and every timestamp whose counter
`floor(t / 30)` fits in 32 bits, `generateTOTP` returns exactly the
RFC 4226 / RFC 6238 reference result spelled out by the claim. -/
theorem generateTOTP_matches_rfc :
    ∀ (hmac : List Nat → List Nat → List Nat) (s : List Char) (t : Nat),
      (∀ k m, (hmac k m).length = 20) →
      (∀ k m b, b ∈ hmac k m → b < 256) →
      t / 30 < 2 ^ 32 →
      generateTOTP hmac s t = rfcTOTP hmac s t := by
  intro hmac s t hlen hbyte hc
  unfold generateTOTP totpFromDigest rfcTOTP
  rw [counterBytes_of_lt hc,
    dynamicTruncate_eq_rfc (hlen _ _) (fun b hb => hbyte _ _ b hb)]

/-- C1 witness: the amended theorem applied at the RFC test timestamp 59
with the concrete 20-byte primitive `hmacProbe`. -/
theorem generateTOTP_matches_rfc_witness :
    generateTOTP hmacProbe [] 59 = rfcTOTP hmacProbe [] 59 :=
  generateTOTP_matches_rfc hmacProbe [] 59
    (fun _ m => by simp [hmacProbe])
    (fun _ m b hb => by
      simp only [hmacProbe, List.mem_replicate] at hb
      omega)
    (by norm_num)

/-- C2: the decoder of the source equals the reference decode written in
the specification order of steps, and the output byte length is
`floor(5 * validCharCount / 8)` where `validCharCount` counts the
characters surviving the cleaning steps. -/
theorem base32ToBytes_matches_spec :
    ∀ s : List Char,
      base32ToBytes s = specDecode s ∧
      (base32ToBytes s).length = 5 * (specClean s).length / 8 := by
  intro s
  constructor
  · unfold base32ToBytes specDecode
    rw [cleanOf_eq, specClean_eq]
  · unfold base32ToBytes
    rw [bitsToBytes_length, length_flatMap_charBits, cleanOf_eq, specClean_eq]

/-- C3 counterexample: at counter `2 ^ 32` the signed buffer is not the
big-endian encoding of the counter, and its high four bytes are zero even
though the counter is not below `2 ^ 32`, refuting the claimed
equivalence at this concrete input. -/
theorem counter_encoding_counterexample :
    counterBytes (2 ^ 32) ≠ be64 (2 ^ 32) ∧
      ¬((counterBytes (2 ^ 32)).take 4 = [0, 0, 0, 0] ↔ 2 ^ 32 < 2 ^ 32) := by
  decide

/-- C3 (amended): the buffer the generator signs always has its high four
bytes zero and carries the big-endian encoding of `counter mod 2 ^ 32` in
its low four bytes; it equals the full 8-byte big-endian counter exactly
when the counter is below `2 ^ 32`. -/
theorem counter_encoding_amended :
    ∀ c : Nat, c < 2 ^ 64 →
      (counterBytes c).take 4 = [0, 0, 0, 0] ∧
      (counterBytes c).drop 4 = be32 (c % 2 ^ 32) ∧
      (counterBytes c = be64 c ↔ c < 2 ^ 32) := by
  intro c h
  exact ⟨rfl, rfl, counterBytes_eq_be64_iff h⟩

/-- C3 witness: the amended theorem applied at counter 77. -/
theorem counter_encoding_amended_witness :
    counterBytes 77 = be64 77 :=
  ((counter_encoding_amended 77 (by norm_num)).2.2).mpr (by norm_num)

/-- C4: for every primitive, secret and timestamp, the generated code is
exactly six characters, each an ASCII decimal digit, and it is the
zero-padded rendering of a value below 1000000. -/
theorem generateTOTP_six_digits :
    ∀ (hmac : List Nat → List Nat → List Nat) (s : List Char) (t : Nat),
      (generateTOTP hmac s t).length = 6 ∧
      (∀ c ∈ generateTOTP hmac s t, c.isDigit = true) ∧
      ∃ m, m < 1000000 ∧ generateTOTP hmac s t = padStart (natToDec m) 6 '0' := by
  intro hmac s t
  refine ⟨(totpFromDigest_format _).1, (totpFromDigest_format _).2, ?_⟩
  exact ⟨_, Nat.mod_lt _ (by norm_num), rfl⟩

/-- C5: the decoder is a total function of its input; the empty string
decodes to the empty byte sequence, an input made of invalid characters
only (after case folding) decodes to the empty byte sequence, and an
invalid character inserted anywhere is silently dropped without changing
the result. -/
theorem base32ToBytes_total_drop :
    base32ToBytes [] = [] ∧
    (∀ s : List Char, (∀ c ∈ s, isB32Char c.toUpper = false) →
      base32ToBytes s = []) ∧
    (∀ (s₁ s₂ : List Char) (c : Char), isB32Char c.toUpper = false →
      base32ToBytes (s₁ ++ c :: s₂) = base32ToBytes (s₁ ++ s₂)) := by
  refine ⟨rfl, ?_, ?_⟩
  · intro s hs
    unfold base32ToBytes
    rw [cleanOf_eq]
    have h0 : s.filter (isB32Char ∘ Char.toUpper) = [] := by
      rw [List.filter_eq_nil_iff]
      intro a ha
      simp [hs a ha]
    rw [h0]
    rfl
  · intro s₁ s₂ c hc
    unfold base32ToBytes
    rw [cleanOf_eq, cleanOf_eq, List.filter_append, List.filter_append]
    have h0 : (c :: s₂).filter (isB32Char ∘ Char.toUpper) =
        s₂.filter (isB32Char ∘ Char.toUpper) := by
      simp only [List.filter_cons, Function.comp_apply, hc]
      rfl
    rw [h0]

/-- C5 witness: a space is invalid, so a lone space decodes to nothing. -/
theorem base32ToBytes_total_drop_witness :
    base32ToBytes [' '] = [] :=
  base32ToBytes_total_drop.2.1 [' '] (by decide)

/-- C6: the generated code depends on the timestamp only through
`floor(t / 30)`: two timestamps in the same 30-second window give the
same code for the same secret and primitive. -/
theorem generateTOTP_window_stable :
    ∀ (hmac : List Nat → List Nat → List Nat) (s : List Char) (t₁ t₂ : Nat),
      t₁ / 30 = t₂ / 30 →
      generateTOTP hmac s t₁ = generateTOTP hmac s t₂ := by
  intro hmac s t₁ t₂ h
  unfold generateTOTP
  rw [h]

/-- C6 witness: the window-stability theorem applied at the window
boundary pair 0 and 29. -/
theorem generateTOTP_window_stable_witness :
    generateTOTP hmacProbe [] 0 = generateTOTP hmacProbe [] 29 :=
  generateTOTP_window_stable hmacProbe [] 0 29 (by decide)

/-- C7: decoding is case-insensitive: the lowercase rendering of any
string decodes the same as its uppercase rendering, and in particular the
sample `jbsw y3dp` with an embedded space decodes the same as
`JBSWY3DP`. -/
theorem base32ToBytes_case_insensitive :
    (∀ s : List Char,
      base32ToBytes (s.map Char.toLower) = base32ToBytes (s.map Char.toUpper)) ∧
    base32ToBytes sampleLower = base32ToBytes sampleUpper := by
  constructor
  · intro s
    unfold base32ToBytes
    rw [cleanOf_eq, cleanOf_eq, List.filter_map, List.filter_map,
      List.map_map, List.map_map]
    have hfl : (isB32Char ∘ Char.toUpper) ∘ Char.toLower =
        isB32Char ∘ Char.toUpper := by
      funext c
      simp only [Function.comp_apply, char_toUpper_toLower]
    have hfu : (isB32Char ∘ Char.toUpper) ∘ Char.toUpper =
        isB32Char ∘ Char.toUpper := by
      funext c
      simp only [Function.comp_apply, char_toUpper_fix]
    have hgl : Char.toUpper ∘ Char.toLower = Char.toUpper := by
      funext c
      exact char_toUpper_toLower c
    have hgu : Char.toUpper ∘ Char.toUpper = Char.toUpper := by
      funext c
      exact char_toUpper_fix c
    rw [hfl, hfu, hgl, hgu]
  · decide

/-- C8: generation and decoding are pure functions of their arguments in
this model, so two invocations on the same `(primitive, secret, time)`
triple, or on the same string, are literally the same value. -/
theorem generation_deterministic :
    (∀ (hmac : List Nat → List Nat → List Nat) (s : List Char) (t : Nat),
      generateTOTP hmac s t = generateTOTP hmac s t) ∧
    (∀ s : List Char, base32ToBytes s = base32ToBytes s) :=
  ⟨fun _ _ _ => rfl, fun _ => rfl⟩

/-- C9: when the secret decodes to an empty key the generator still calls
the primitive with the zero-length key and still produces a well-formed
six-digit code. -/
theorem generateTOTP_empty_key_ok :
    ∀ (hmac : List Nat → List Nat → List Nat) (s : List Char) (t : Nat),
      base32ToBytes s = [] →
      generateTOTP hmac s t = totpFromDigest (hmac [] (counterBytes (t / 30))) ∧
      (generateTOTP hmac s t).length = 6 ∧
      ∀ c ∈ generateTOTP hmac s t, c.isDigit = true := by
  intro hmac s t h
  refine ⟨?_, (totpFromDigest_format _).1, (totpFromDigest_format _).2⟩
  unfold generateTOTP
  rw [h]

/-- C9 witness: the empty-key theorem applied to a secret consisting of a
single space, whose decoded key is empty. -/
theorem generateTOTP_empty_key_ok_witness :
    generateTOTP hmacProbe [' '] 0 =
      totpFromDigest (hmacProbe [] (counterBytes (0 / 30))) :=
  (generateTOTP_empty_key_ok hmacProbe [' '] 0 (by decide)).1

/-- C10: on any 20-byte digest the dynamic-truncation offset is at most
15, the four accessed indices stay at or below 18 and within bounds, and
the assembled integer is below `2 ^ 31` (so the later reduction modulo
1000000 acts on a value that is nonnegative by construction). -/
theorem dynamic_truncation_safe :
    ∀ digest : List Nat, digest.length = 20 →
      truncOffset digest ≤ 15 ∧
      truncOffset digest + 3 ≤ 18 ∧
      truncOffset digest + 3 < digest.length ∧
      dynamicTruncate digest < 2 ^ 31 := by
  intro digest h
  have h15 := truncOffset_le digest
  exact ⟨h15, by omega, by omega, dynamicTruncate_lt digest⟩

/-- C10 witness: the safety theorem applied to the all-zero 20-byte
digest. -/
theorem dynamic_truncation_safe_witness :
    truncOffset (List.replicate 20 0) ≤ 15 :=
  (dynamic_truncation_safe (List.replicate 20 0) (by decide)).1
